import Mathlib

/-!
Verification development for the weekly-prices dashboard core
(`weekly_prices.py`).  Calendar dates are embedded as integers (days);
`timedelta(days=1)` becomes `1`.  Closes are rationals.  The SQLite table
`asset_prices` is a list of rows; reads sort by date, mirroring
`ORDER BY date ASC`.  Fallible Python code (upstream fetches, IndexError,
ZeroDivisionError) is embedded with `Except` / explicit outcome values.
-/

/-- A row of the `asset_prices` table: (ticker, date, close, updated_at). -/
structure DbRow where
  ticker : String
  date : Int
  close : Rat
  upAt : Nat
deriving DecidableEq

/-- The `asset_prices` table. -/
abbrev Store := List DbRow

/-- First row whose key is (t, d), projected to its close.  This is the
keyed view of the table (the primary key makes the row unique in practice). -/
def lookupClose : Store → String → Int → Option Rat
  | [], _, _ => none
  | r :: rest, t, d =>
    if r.ticker = t ∧ r.date = d then some r.close else lookupClose rest t d

/-- Delete every row with key (t, d): the conflict-removal half of
SQLite `INSERT OR REPLACE`. -/
def delKey (t : String) (d : Int) : Store → Store
  | [] => []
  | r :: rest =>
    if r.ticker = t ∧ r.date = d then delKey t d rest else r :: delKey t d rest

/-- `INSERT OR REPLACE` of one row: drop any row with the same
(ticker, date) key, then insert. -/
def replaceRow (st : Store) (r : DbRow) : Store :=
  delKey r.ticker r.date st ++ [r]

/-- The `executemany` loop body of `upsert_prices`: replace-or-insert every
(date, close) pair of the batch, tagged with ticker `t` and timestamp `now`. -/
def upsertAux (t : String) (now : Nat) (hist : List (Int × Rat)) (st : Store) : Store :=
  hist.foldl (fun acc p => replaceRow acc ⟨t, p.1, p.2, now⟩) st

/-- `upsert_prices(ticker, hist_df, db_path)`: no-op on an empty frame,
otherwise replace-or-insert each row. -/
def upsert_prices (t : String) (hist : List (Int × Rat)) (now : Nat) (st : Store) : Store :=
  if hist.isEmpty then st else upsertAux t now hist st

/-- Insert a (date, close) pair into a date-ascending list. -/
def insertByDate (p : Int × Rat) : List (Int × Rat) → List (Int × Rat)
  | [] => [p]
  | q :: rest => if p.1 ≤ q.1 then p :: q :: rest else q :: insertByDate p rest

/-- Sort (date, close) pairs ascending by date: `ORDER BY date ASC`. -/
def sortByDate (l : List (Int × Rat)) : List (Int × Rat) :=
  l.foldr insertByDate []

/-- All (date, close) pairs of a ticker, in table order. -/
def rowsFor (st : Store) (t : String) : List (Int × Rat) :=
  (st.filter (fun r => r.ticker == t)).map (fun r => (r.date, r.close))

/-- `fetch_cached_prices(ticker, start_date, end_date, db_path)`:
`SELECT date, close WHERE ticker = ? AND date BETWEEN ? AND ? ORDER BY date ASC`. -/
def fetch_cached_prices (st : Store) (t : String) (s e : Int) : List (Int × Rat) :=
  sortByDate
    ((st.filter
        (fun r => r.ticker == t && decide (s ≤ r.date) && decide (r.date ≤ e))).map
      (fun r => (r.date, r.close)))

/-- The last `n` elements of a list (pandas `tail(n)` on a sorted frame). -/
def tailN (n : Nat) (l : List (Int × Rat)) : List (Int × Rat) :=
  l.drop (l.length - n)

/-- `fetch_cached_last_n(ticker, limit_count, db_path)`:
`ORDER BY date DESC LIMIT n` then `reversed`, i.e. the last `n` rows of the
date-ascending sequence. -/
def fetch_cached_last_n (st : Store) (t : String) (n : Nat) : List (Int × Rat) :=
  tailN n (sortByDate (rowsFor st t))

/-- `add_range(range_start, range_end)`: dropped when start > end. -/
def addRange (s e : Int) : List (Int × Int) :=
  if s > e then [] else [(s, e)]

/-- `min(cached_dates)` for a possibly-empty list (`None` when empty). -/
def listMin : List Int → Option Int
  | [] => none
  | x :: xs => some (xs.foldl min x)

/-- `max(cached_dates)` for a possibly-empty list (`None` when empty). -/
def listMax : List Int → Option Int
  | [] => none
  | x :: xs => some (xs.foldl max x)

/-- The empty-cache / gap half of the fetch planning block
(`weekly_prices.py` lines 284-290): full window when the cached slice is
empty, otherwise a left gap when `cached_min > start` and a right gap when
`cached_max < end`. -/
def gapRanges (s e : Int) (cached : List Int) : List (Int × Int) :=
  match listMin cached, listMax cached with
  | some cmin, some cmax =>
    (if s < cmin then addRange s (cmin - 1) else []) ++
      (if cmax < e then addRange (cmax + 1) e else [])
  | _, _ => addRange s e

/-- The whole calendar-window fetch planning block
(`weekly_prices.py` lines 278-290): empty under `stale_only`; otherwise the
force-refresh window `[start, end]` or the live refresh window
`[max(start, end-1), end]`, followed by the empty-cache / gap ranges. -/
def planFetchRanges (staleOnly forceRefresh : Bool) (s e : Int)
    (cached : List Int) : List (Int × Int) :=
  if staleOnly then []
  else
    (if forceRefresh then addRange s e else addRange (max s (e - 1)) e) ++
      gapRanges s e cached

/-- An upstream (yfinance) call: `stock.history(start=s, end=e)` with `e`
exclusive, or `stock.history(period="1mo")`. -/
inductive UpCall where
  | range (t : String) (s e : Int)
  | month (t : String)
deriving DecidableEq

/-- Python exceptions relevant to the per-asset loop. -/
inductive PyErr where
  | upstreamErr
  | indexErr
  | zeroDivErr
deriving DecidableEq

/-- The per-asset outputs: the `results` row together with the
`chart_data` / `chart_dates` / `chart_changes` entries, which are keyed by
the same name and populated together (lines 227-240 and 322-335). -/
structure AssetRow where
  name : String
  ticker : String
  dates : List Int
  closes : List Rat
  current : Rat
  changePct : Option Rat
deriving DecidableEq

/-- Lines 307-335 (identically 212-240): build the per-asset outputs from
the cached slice.  `close_values[-1]` raises IndexError on an empty slice;
the change formula raises ZeroDivisionError when the first close is 0. -/
def assemble (name ticker : String) (cachedRows : List (Int × Rat)) :
    Except PyErr AssetRow :=
  match cachedRows.getLast? with
  | none => Except.error PyErr.indexErr
  | some lastP =>
    let closes := cachedRows.map (fun p => p.2)
    let dates := cachedRows.map (fun p => p.1)
    if 2 ≤ closes.length then
      let sp := closes.headD 0
      let ep := closes.getLastD 0
      if sp = 0 then Except.error PyErr.zeroDivErr
      else Except.ok ⟨name, ticker, dates, closes, lastP.2, some ((ep - sp) / sp * 100)⟩
    else Except.ok ⟨name, ticker, dates, closes, lastP.2, none⟩

/-- How one asset's iteration of the loop ends: a produced row, a silent
`continue` (empty re-read), or a swallowed exception.  Each outcome carries
the store as committed so far and the upstream calls made. -/
inductive Outcome where
  | ok (st : Store) (calls : List UpCall) (row : AssetRow)
  | skip (st : Store) (calls : List UpCall)
  | err (st : Store) (calls : List UpCall) (e : PyErr)
deriving DecidableEq

/-- The store an outcome leaves behind. -/
def Outcome.store : Outcome → Store
  | ok st _ _ => st
  | skip st _ => st
  | err st _ _ => st

/-- The upstream calls an outcome made. -/
def Outcome.calls : Outcome → List UpCall
  | ok _ cs _ => cs
  | skip _ cs => cs
  | err _ cs _ => cs

/-- Lines 295-301: fetch each planned sub-window (with exclusive end
`range_end + 1`), upserting non-empty results; an upstream failure raises,
keeping the upserts committed so far. -/
def fetchLoop (U : UpCall → Except Unit (List (Int × Rat))) (t : String) (now : Nat) :
    List (Int × Int) → Store → List UpCall →
      Except (Store × List UpCall) (Store × List UpCall)
  | [], st, calls => Except.ok (st, calls)
  | (rs, re) :: rest, st, calls =>
    match U (UpCall.range t rs (re + 1)) with
    | Except.error _ => Except.error (st, calls ++ [UpCall.range t rs (re + 1)])
    | Except.ok hist =>
      fetchLoop U t now rest
        (if hist.isEmpty then st else upsert_prices t (sortByDate hist) now st)
        (calls ++ [UpCall.range t rs (re + 1)])

/-- The `if not cached_rows: continue` guard followed by the assembly code
(lines 209 + 212-240, and lines 304-305 + 307-335): skip silently on an
empty slice, otherwise assemble (which may still raise). -/
def finishSlice (name ticker : String) (st : Store) (cs : List UpCall)
    (slice : List (Int × Rat)) : Outcome :=
  if slice.isEmpty then Outcome.skip st cs
  else
    match assemble name ticker slice with
    | Except.ok row => Outcome.ok st cs row
    | Except.error er => Outcome.err st cs er

/-- One iteration of the calendar-window per-asset loop body
(lines 257-335): read the cached slice, plan, fetch, re-read, assemble.
On the stale path there is NO empty-slice guard before the assembly. -/
def processAssetCal (staleOnly forceRefresh : Bool) (s e : Int) (now : Nat)
    (U : UpCall → Except Unit (List (Int × Rat)))
    (name ticker : String) (st : Store) : Outcome :=
  if staleOnly then
    match assemble name ticker (fetch_cached_prices st ticker s e) with
    | Except.ok row => Outcome.ok st [] row
    | Except.error er => Outcome.err st [] er
  else
    match
      fetchLoop U ticker now
        (planFetchRanges false forceRefresh s e
          ((fetch_cached_prices st ticker s e).map (fun p => p.1)))
        st [] with
    | Except.error p => Outcome.err p.1 p.2 PyErr.upstreamErr
    | Except.ok p => finishSlice name ticker p.1 p.2 (fetch_cached_prices p.1 ticker s e)

/-- The store after the trading-day-count fetch (lines 202-205): upsert the
last N rows of the sorted trailing-month history, unless it is empty. -/
def tradeStore (ticker : String) (n now : Nat) (hist : List (Int × Rat))
    (st : Store) : Store :=
  if hist.isEmpty then st else upsert_prices ticker (tailN n (sortByDate hist)) now st

/-- One iteration of the trading-day-count per-asset loop body
(lines 192-240): under `stale_only` read the cached last-N slice; otherwise
fetch the trailing month when forced or underfilled, upsert its sorted last
N rows, and re-read the last N cached rows. -/
def processAssetTrade (staleOnly forceRefresh : Bool) (n : Nat) (now : Nat)
    (U : UpCall → Except Unit (List (Int × Rat)))
    (name ticker : String) (st : Store) : Outcome :=
  if staleOnly then
    finishSlice name ticker st [] (fetch_cached_last_n st ticker n)
  else
    if forceRefresh || decide ((fetch_cached_last_n st ticker n).length < n) then
      match U (UpCall.month ticker) with
      | Except.error _ => Outcome.err st [UpCall.month ticker] PyErr.upstreamErr
      | Except.ok hist =>
        finishSlice name ticker (tradeStore ticker n now hist st) [UpCall.month ticker]
          (fetch_cached_last_n (tradeStore ticker n now hist st) ticker n)
    else
      finishSlice name ticker st [] (fetch_cached_last_n st ticker n)

/-- The per-asset log line at the end of an iteration: the success line
inside the `try`, or the `조회 실패` line in the `except` handler.  A bare
`continue` (empty re-read) logs neither. -/
inductive LogEvent where
  | success (name : String)
  | failure (name : String)
deriving DecidableEq

/-- The four aggregated outputs of `fetch_asset_history`, plus the upstream
calls made (for stating upstream-call claims). -/
structure BatchResult where
  store : Store
  rows : List AssetRow
  logs : List LogEvent
  calls : List UpCall
deriving DecidableEq

/-- The `for korean_name, ticker in assets.items()` loop with its
`try/except Exception: continue` wrapper: exceptions are swallowed, the
asset contributes no row, and iteration continues on the store committed
so far. -/
def runBatch (step : String → String → Store → Outcome) :
    List (String × String) → Store → BatchResult
  | [], st => ⟨st, [], [], []⟩
  | (name, ticker) :: rest, st =>
    match step name ticker st with
    | Outcome.ok st2 cs row =>
      let b := runBatch step rest st2
      ⟨b.store, row :: b.rows, LogEvent.success name :: b.logs, cs ++ b.calls⟩
    | Outcome.skip st2 cs =>
      let b := runBatch step rest st2
      ⟨b.store, b.rows, b.logs, cs ++ b.calls⟩
    | Outcome.err st2 cs _ =>
      let b := runBatch step rest st2
      ⟨b.store, b.rows, LogEvent.failure name :: b.logs, cs ++ b.calls⟩

/-- Python truthiness of the `trading_days` argument (`if trading_days:`). -/
def tdTruthy : Option Nat → Bool
  | none => false
  | some n => decide (n ≠ 0)

/-- `fetch_asset_history(assets, ...)`: dispatch on `trading_days`
truthiness, then run the per-asset loop.  `s`, `e` stand for the window
already resolved by `resolve_date_range` (lines 251-254). -/
def fetch_asset_history (assets : List (String × String)) (s e : Int)
    (tradingDays : Option Nat) (staleOnly forceRefresh : Bool) (now : Nat)
    (U : UpCall → Except Unit (List (Int × Rat))) (st : Store) : BatchResult :=
  if tdTruthy tradingDays then
    runBatch (processAssetTrade staleOnly forceRefresh (tradingDays.getD 0) now U) assets st
  else
    runBatch (processAssetCal staleOnly forceRefresh s e now U) assets st

/-- Python truthiness of an optional string argument. -/
def truthy : Option String → Bool
  | none => false
  | some v => !v.isEmpty

/-- The underlying string of an optional string (only used when truthy). -/
def strVal : Option String → String
  | none => ""
  | some v => v

/-- The fallback period tag (`period or "7d"`). -/
def defaultTag : String := "7d"

/-- The key looked up in `period_map`: the supplied tag when truthy,
otherwise the fallback. -/
def periodKey (period : Option String) : String :=
  if truthy period then strVal period else defaultTag

/-- `period_map.get(period or "7d", 7)`. -/
def periodDays (period : Option String) : Int :=
  if periodKey period = "7d" then 7
  else if periodKey period = "1mo" then 30
  else if periodKey period = "3mo" then 90
  else if periodKey period = "6mo" then 180
  else if periodKey period = "1y" then 365
  else 7

/-- `resolve_date_range(period, start, end)` (lines 158-171), parametric in
the date parser `pd` (which models `parse_date` and may fail on a malformed
string): the explicit range is used only when both `start` and `end` are
truthy; otherwise the window is `[today - days, today]` from the period
tag, and neither date string is parsed. -/
def resolve_date_range (pd : String → Except Unit Int)
    (period startStr endStr : Option String) (today : Int) :
    Except Unit (Int × Int) :=
  if truthy startStr && truthy endStr then
    match pd (strVal startStr) with
    | Except.error u => Except.error u
    | Except.ok s =>
      match pd (strVal endStr) with
      | Except.error u => Except.error u
      | Except.ok e => Except.ok (s, e)
  else
    Except.ok (today - periodDays period, today)

/-- Concrete asset names and upstream oracles used by the witnesses. -/
def nameA : String := "A"

def tickA : String := "T"

def nameB : String := "B"

def tickB : String := "TB"

def dateStrA : String := "2024-01-01"

def Ufail : UpCall → Except Unit (List (Int × Rat)) := fun _ => Except.error ()

def Uone : UpCall → Except Unit (List (Int × Rat)) :=
  fun _ => Except.ok [((0 : Int), (10 : Rat))]

/-- An upstream whose history holds two trading days — more rows than a
`trading_days = 1` request asks for. -/
def Utwo : UpCall → Except Unit (List (Int × Rat)) :=
  fun _ => Except.ok [((0 : Int), (5 : Rat)), ((1 : Int), (6 : Rat))]

def pdFail : String → Except Unit Int := fun _ => Except.error ()

/-- The row produced from cached closes `[100, 110]`. -/
def rowW : AssetRow :=
  ⟨nameA, tickA, [0, 1], [100, 110], 110, some (((110 : Rat) - 100) / 100 * 100)⟩

/-- The last close recorded for date `d` in a batch of (date, close) pairs
(the row that wins the replace-or-insert). -/
def lastVal : List (Int × Rat) → Int → Option Rat
  | [], _ => none
  | p :: rest, d =>
    match lastVal rest d with
    | some c => some c
    | none => if p.1 = d then some p.2 else none

theorem foldl_min_le_init (xs : List Int) (x : Int) : xs.foldl min x ≤ x := by
  induction xs generalizing x with
  | nil => exact le_refl x
  | cons y ys ih =>
    calc ys.foldl min (min x y) ≤ min x y := ih (min x y)
    _ ≤ x := min_le_left x y

theorem foldl_min_le_mem (xs : List Int) :
    ∀ (x d : Int), d ∈ xs → xs.foldl min x ≤ d := by
  induction xs with
  | nil => intro x d hd; cases hd
  | cons y ys ih =>
    intro x d hd
    rcases List.mem_cons.mp hd with h | h
    · subst h
      calc ys.foldl min (min x d) ≤ min x d := foldl_min_le_init ys (min x d)
      _ ≤ d := min_le_right x d
    · exact ih (min x y) d h

theorem foldl_min_mem (xs : List Int) :
    ∀ x : Int, xs.foldl min x = x ∨ xs.foldl min x ∈ xs := by
  induction xs with
  | nil => intro x; left; rfl
  | cons y ys ih =>
    intro x
    simp only [List.foldl_cons]
    rcases ih (min x y) with h | h
    · rw [h]
      rcases min_choice x y with h2 | h2
      · left; exact h2
      · right; rw [h2]; exact List.mem_cons_self y ys
    · right; exact List.mem_cons_of_mem y h

theorem foldl_max_init_le (xs : List Int) (x : Int) : x ≤ xs.foldl max x := by
  induction xs generalizing x with
  | nil => exact le_refl x
  | cons y ys ih =>
    calc x ≤ max x y := le_max_left x y
    _ ≤ ys.foldl max (max x y) := ih (max x y)

theorem foldl_max_mem_le (xs : List Int) :
    ∀ (x d : Int), d ∈ xs → d ≤ xs.foldl max x := by
  induction xs with
  | nil => intro x d hd; cases hd
  | cons y ys ih =>
    intro x d hd
    rcases List.mem_cons.mp hd with h | h
    · subst h
      calc d ≤ max x d := le_max_right x d
      _ ≤ ys.foldl max (max x d) := foldl_max_init_le ys (max x d)
    · exact ih (max x y) d h

theorem foldl_max_mem (xs : List Int) :
    ∀ x : Int, xs.foldl max x = x ∨ xs.foldl max x ∈ xs := by
  induction xs with
  | nil => intro x; left; rfl
  | cons y ys ih =>
    intro x
    simp only [List.foldl_cons]
    rcases ih (max x y) with h | h
    · rw [h]
      rcases max_choice x y with h2 | h2
      · left; exact h2
      · right; rw [h2]; exact List.mem_cons_self y ys
    · right; exact List.mem_cons_of_mem y h

theorem listMin_mem {l : List Int} {m : Int} (h : listMin l = some m) : m ∈ l := by
  cases l with
  | nil => cases h
  | cons x xs =>
    have hm : xs.foldl min x = m := by
      have := h
      simp only [listMin, Option.some.injEq] at this
      exact this
    rcases foldl_min_mem xs x with h2 | h2
    · rw [← hm, h2]; exact List.mem_cons_self x xs
    · rw [← hm]; exact List.mem_cons_of_mem x h2

theorem listMin_le {l : List Int} {m : Int} (h : listMin l = some m) :
    ∀ d ∈ l, m ≤ d := by
  cases l with
  | nil => cases h
  | cons x xs =>
    have hm : xs.foldl min x = m := by
      simp only [listMin, Option.some.injEq] at h
      exact h
    intro d hd
    rcases List.mem_cons.mp hd with h2 | h2
    · subst h2; rw [← hm]; exact foldl_min_le_init xs d
    · rw [← hm]; exact foldl_min_le_mem xs x d h2

theorem listMax_mem {l : List Int} {m : Int} (h : listMax l = some m) : m ∈ l := by
  cases l with
  | nil => cases h
  | cons x xs =>
    have hm : xs.foldl max x = m := by
      simp only [listMax, Option.some.injEq] at h
      exact h
    rcases foldl_max_mem xs x with h2 | h2
    · rw [← hm, h2]; exact List.mem_cons_self x xs
    · rw [← hm]; exact List.mem_cons_of_mem x h2

theorem listMax_ge {l : List Int} {m : Int} (h : listMax l = some m) :
    ∀ d ∈ l, d ≤ m := by
  cases l with
  | nil => cases h
  | cons x xs =>
    have hm : xs.foldl max x = m := by
      simp only [listMax, Option.some.injEq] at h
      exact h
    intro d hd
    rcases List.mem_cons.mp hd with h2 | h2
    · subst h2; rw [← hm]; exact foldl_max_init_le xs d
    · rw [← hm]; exact foldl_max_mem_le xs x d h2

theorem mem_addRange {r : Int × Int} {a b : Int} :
    r ∈ addRange a b ↔ a ≤ b ∧ r = (a, b) := by
  unfold addRange
  by_cases hab : a > b
  · rw [if_pos hab]
    simp only [List.not_mem_nil, false_iff]
    intro hc
    omega
  · rw [if_neg hab]
    simp only [List.mem_singleton]
    constructor
    · intro hr; exact ⟨by omega, hr⟩
    · intro hr; exact hr.2

theorem addRange_of_le {a b : Int} (h : a ≤ b) : addRange a b = [(a, b)] := by
  unfold addRange
  rw [if_neg (by omega)]

theorem plan_force_eq (s e : Int) (cached : List Int) (hse : s ≤ e) :
    planFetchRanges false true s e cached = (s, e) :: gapRanges s e cached := by
  unfold planFetchRanges
  rw [if_neg (by simp), if_pos rfl, addRange_of_le hse]
  rfl

theorem plan_live_eq (s e : Int) (cached : List Int) (hse : s ≤ e) :
    planFetchRanges false false s e cached =
      (max s (e - 1), e) :: gapRanges s e cached := by
  unfold planFetchRanges
  rw [if_neg (by simp), if_neg (by simp), addRange_of_le (by omega)]
  rfl

theorem gapRanges_nil (s e : Int) : gapRanges s e [] = addRange s e := rfl

theorem gapRanges_cons_eq (s e : Int) (cached : List Int) (cmin cmax : Int)
    (h1 : listMin cached = some cmin) (h2 : listMax cached = some cmax) :
    gapRanges s e cached =
      (if s < cmin then addRange s (cmin - 1) else []) ++
        (if cmax < e then addRange (cmax + 1) e else []) := by
  unfold gapRanges
  rw [h1, h2]

theorem gapRanges_bounds (s e : Int) (cached : List Int) (hse : s ≤ e)
    (hin : ∀ d ∈ cached, s ≤ d ∧ d ≤ e) :
    ∀ r ∈ gapRanges s e cached, s ≤ r.1 ∧ r.1 ≤ r.2 ∧ r.2 ≤ e := by
  intro r hr
  cases hc : cached with
  | nil =>
    rw [hc, gapRanges_nil] at hr
    rcases mem_addRange.mp hr with ⟨hab, hr2⟩
    rw [hr2]
    exact ⟨le_refl s, hse, le_refl e⟩
  | cons x xs =>
    have h1 : listMin cached = some (xs.foldl min x) := by rw [hc]; rfl
    have h2 : listMax cached = some (xs.foldl max x) := by rw [hc]; rfl
    have hminmem : xs.foldl min x ∈ cached := listMin_mem h1
    have hmaxmem : xs.foldl max x ∈ cached := listMax_mem h2
    have hmin : s ≤ xs.foldl min x ∧ xs.foldl min x ≤ e := hin _ hminmem
    have hmax : s ≤ xs.foldl max x ∧ xs.foldl max x ≤ e := hin _ hmaxmem
    rw [gapRanges_cons_eq s e cached (xs.foldl min x) (xs.foldl max x) h1 h2] at hr
    rcases List.mem_append.mp hr with hl | hrr
    · by_cases hg : s < xs.foldl min x
      · rw [if_pos hg] at hl
        rcases mem_addRange.mp hl with ⟨hab, hr2⟩
        rw [hr2]
        refine ⟨le_refl s, hab, ?_⟩
        omega
      · rw [if_neg hg] at hl
        cases hl
    · by_cases hg : xs.foldl max x < e
      · rw [if_pos hg] at hrr
        rcases mem_addRange.mp hrr with ⟨hab, hr2⟩
        rw [hr2]
        refine ⟨by omega, hab, le_refl e⟩
      · rw [if_neg hg] at hrr
        cases hrr

/-- C1 counterexample: under ForceRefresh with an empty cache slice the
fetch plan is `[(start, end), (start, end)]`, not the single sub-window
`[(start, end)]` — the empty-cache planning rule still runs after the
force-refresh rule. -/
theorem c1_force_refresh_not_single :
    planFetchRanges false true 0 5 [] = [(0, 5), (0, 5)] ∧
      planFetchRanges false true 0 5 [] ≠ [(0, 5)] := by
  constructor
  · decide
  · decide

/-- C1 (amended): in calendar-window mode under ForceRefresh the plan
starts with `[start, end]` — ForceRefresh replaces only the Live
most-recent-day refresh sub-window — and the empty-cache / gap rules still
append their sub-windows afterwards; every planned sub-window is
non-degenerate and contained in `[start, end]`. -/
theorem c1_force_refresh_plan (s e : Int) (cached : List Int) (hse : s ≤ e)
    (hin : ∀ d ∈ cached, s ≤ d ∧ d ≤ e) :
    planFetchRanges false true s e cached = (s, e) :: gapRanges s e cached ∧
      ∀ r ∈ planFetchRanges false true s e cached,
        s ≤ r.1 ∧ r.1 ≤ r.2 ∧ r.2 ≤ e := by
  refine ⟨plan_force_eq s e cached hse, ?_⟩
  intro r hr
  rw [plan_force_eq s e cached hse] at hr
  rcases List.mem_cons.mp hr with h | h
  · rw [h]
    exact ⟨le_refl s, hse, le_refl e⟩
  · exact gapRanges_bounds s e cached hse hin r h

/-- C1 witness: the amended plan shape evaluated at a concrete input. -/
theorem c1_force_refresh_plan_witness :
    (0 : Int) ≤ 5 ∧
      planFetchRanges false true 0 5 [2] = (0, 5) :: gapRanges 0 5 [2] :=
  ⟨by decide, (c1_force_refresh_plan 0 5 [2] (by decide) (by decide)).1⟩

/-- C2: in calendar-window mode with neither ForceRefresh nor StaleOnly,
an empty cache slice makes the planner fetch `[start, end]` in full, and a
non-empty slice yields exactly two independent gap checks: the left gap
`[start, extentMin - 1]` is planned iff `start < extentMin`, and the right
gap `[extentMax + 1, end]` is planned iff `extentMax < end`. -/
theorem c2_gap_checks (s e : Int) (cached : List Int) (hse : s ≤ e)
    (hin : ∀ d ∈ cached, s ≤ d ∧ d ≤ e) :
    (cached = [] → (s, e) ∈ planFetchRanges false false s e cached) ∧
      ∀ cmin cmax : Int, listMin cached = some cmin → listMax cached = some cmax →
        (((s, cmin - 1) ∈ planFetchRanges false false s e cached) ↔ s < cmin) ∧
          (((cmax + 1, e) ∈ planFetchRanges false false s e cached) ↔ cmax < e) := by
  constructor
  · intro hc
    rw [plan_live_eq s e cached hse, hc, gapRanges_nil, addRange_of_le hse]
    exact List.mem_cons_of_mem _ (List.mem_singleton.mpr rfl)
  · intro cmin cmax h1 h2
    have hminb : s ≤ cmin ∧ cmin ≤ e := hin cmin (listMin_mem h1)
    have hmaxb : s ≤ cmax ∧ cmax ≤ e := hin cmax (listMax_mem h2)
    have hplan := plan_live_eq s e cached hse
    have hgap := gapRanges_cons_eq s e cached cmin cmax h1 h2
    constructor
    · constructor
      · intro hmem
        rw [hplan, hgap] at hmem
        rcases List.mem_cons.mp hmem with h | h
        · have : cmin - 1 = e := congrArg Prod.snd h
          omega
        · rcases List.mem_append.mp h with hl | hrr
          · by_cases hg : s < cmin
            · exact hg
            · rw [if_neg hg] at hl; cases hl
          · by_cases hg : cmax < e
            · rw [if_pos hg] at hrr
              rcases mem_addRange.mp hrr with ⟨hab, hr2⟩
              have : cmin - 1 = e := congrArg Prod.snd hr2
              omega
            · rw [if_neg hg] at hrr; cases hrr
      · intro hg
        rw [hplan, hgap]
        refine List.mem_cons_of_mem _ (List.mem_append.mpr (Or.inl ?_))
        rw [if_pos hg, addRange_of_le (by omega)]
        exact List.mem_singleton.mpr rfl
    · constructor
      · intro hmem
        rw [hplan, hgap] at hmem
        rcases List.mem_cons.mp hmem with h | h
        · have : cmax + 1 = max s (e - 1) := congrArg Prod.fst h
          have hle : max s (e - 1) ≤ e := by omega
          omega
        · rcases List.mem_append.mp h with hl | hrr
          · by_cases hg : s < cmin
            · rw [if_pos hg, addRange_of_le (by omega)] at hl
              have : cmax + 1 = s := congrArg Prod.fst (List.mem_singleton.mp hl)
              omega
            · rw [if_neg hg] at hl; cases hl
          · by_cases hg : cmax < e
            · exact hg
            · rw [if_neg hg] at hrr; cases hrr
      · intro hg
        rw [hplan, hgap]
        refine List.mem_cons_of_mem _ (List.mem_append.mpr (Or.inr ?_))
        rw [if_pos hg, addRange_of_le (by omega)]
        exact List.mem_singleton.mpr rfl

/-- C2 witness: with window `[0, 5]` and cached dates `{2, 3}`, the left
gap `(0, 1)` and the right gap `(4, 5)` are both planned. -/
theorem c2_gap_checks_witness :
    ((0 : Int), (1 : Int)) ∈ planFetchRanges false false 0 5 [2, 3] ∧
      ((4 : Int), (5 : Int)) ∈ planFetchRanges false false 0 5 [2, 3] := by
  have h := (c2_gap_checks 0 5 [2, 3] (by decide) (by decide)).2 2 3 (by decide) (by decide)
  constructor
  · have h2 := h.1.mpr (by decide)
    simpa using h2
  · have h2 := h.2.mpr (by decide)
    simpa using h2

/-- C4: in calendar-window mode under Live policy the sub-window
`[max(start, end - 1), end]` is always planned; and when the cached slice
spans exactly `[start, end]` (fully cached window), the plan is that
refresh sub-window and nothing else. -/
theorem c4_live_refresh_window (s e : Int) (cached : List Int) (hse : s ≤ e) :
    (max s (e - 1), e) ∈ planFetchRanges false false s e cached ∧
      (listMin cached = some s → listMax cached = some e →
        planFetchRanges false false s e cached = [(max s (e - 1), e)]) := by
  constructor
  · rw [plan_live_eq s e cached hse]
    exact List.mem_cons_self _ _
  · intro h1 h2
    rw [plan_live_eq s e cached hse, gapRanges_cons_eq s e cached s e h1 h2]
    rw [if_neg (by omega), if_neg (by omega)]
    rfl

/-- C4 witness: window `[0, 5]` fully cached (`extent = [0, 5]`) plans only
the most-recent-day refresh sub-window `(4, 5)`. -/
theorem c4_live_refresh_window_witness :
    planFetchRanges false false 0 5 [0, 5] = [(4, 5)] := by
  have h := (c4_live_refresh_window 0 5 [0, 5] (by decide)).2 (by decide) (by decide)
  simpa using h

theorem lookupClose_nil (t : String) (d : Int) : lookupClose [] t d = none := rfl

theorem lookupClose_cons (r : DbRow) (rest : Store) (t : String) (d : Int) :
    lookupClose (r :: rest) t d =
      if r.ticker = t ∧ r.date = d then some r.close else lookupClose rest t d := rfl

theorem delKey_cons (t2 : String) (d2 : Int) (r : DbRow) (rest : Store) :
    delKey t2 d2 (r :: rest) =
      if r.ticker = t2 ∧ r.date = d2 then delKey t2 d2 rest
      else r :: delKey t2 d2 rest := rfl

theorem lookupClose_delKey (st : Store) (t2 : String) (d2 : Int) (t : String) (d : Int) :
    lookupClose (delKey t2 d2 st) t d =
      if t = t2 ∧ d = d2 then none else lookupClose st t d := by
  induction st with
  | nil =>
    by_cases h : t = t2 ∧ d = d2
    · rw [if_pos h]; rfl
    · rw [if_neg h]; rfl
  | cons r rest ih =>
    rw [delKey_cons]
    by_cases hk : r.ticker = t2 ∧ r.date = d2
    · rw [if_pos hk, ih]
      by_cases h : t = t2 ∧ d = d2
      · rw [if_pos h, if_pos h]
      · rw [if_neg h, if_neg h, lookupClose_cons]
        have hr : ¬(r.ticker = t ∧ r.date = d) := by
          intro hc
          exact h ⟨hc.1 ▸ hk.1, hc.2 ▸ hk.2⟩
        rw [if_neg hr]
    · rw [if_neg hk, lookupClose_cons, lookupClose_cons]
      by_cases hr : r.ticker = t ∧ r.date = d
      · have hne : ¬(t = t2 ∧ d = d2) := by
          intro hc
          exact hk ⟨hr.1.trans hc.1, hr.2.trans hc.2⟩
        rw [if_pos hr, if_pos hr, if_neg hne]
      · rw [if_neg hr, if_neg hr, ih]

theorem lookupClose_append_single (a : Store) (r : DbRow) (t : String) (d : Int) :
    lookupClose (a ++ [r]) t d =
      match lookupClose a t d with
      | some c => some c
      | none => lookupClose [r] t d := by
  induction a with
  | nil => rfl
  | cons q rest ih =>
    rw [List.cons_append, lookupClose_cons, lookupClose_cons]
    by_cases hq : q.ticker = t ∧ q.date = d
    · rw [if_pos hq, if_pos hq]
    · rw [if_neg hq, if_neg hq, ih]

theorem lookupClose_replaceRow (st : Store) (r : DbRow) (t : String) (d : Int) :
    lookupClose (replaceRow st r) t d =
      if t = r.ticker ∧ d = r.date then some r.close else lookupClose st t d := by
  unfold replaceRow
  rw [lookupClose_append_single, lookupClose_delKey]
  by_cases h : t = r.ticker ∧ d = r.date
  · rw [if_pos h, if_pos h]
    show lookupClose [r] t d = some r.close
    rw [lookupClose_cons, if_pos ⟨h.1.symm, h.2.symm⟩]
  · rw [if_neg h, if_neg h]
    cases hv : lookupClose st t d with
    | some c => rfl
    | none =>
      show lookupClose [r] t d = none
      rw [lookupClose_cons, if_neg (by intro hc; exact h ⟨hc.1.symm, hc.2.symm⟩)]
      rfl

theorem lookupClose_upsertAux (t : String) (now : Nat) (hist : List (Int × Rat)) :
    ∀ (st : Store) (t2 : String) (d : Int),
      lookupClose (upsertAux t now hist st) t2 d =
        match (if t2 = t then lastVal hist d else none) with
        | some c => some c
        | none => lookupClose st t2 d := by
  induction hist with
  | nil =>
    intro st t2 d
    by_cases h : t2 = t
    · rw [if_pos h]; rfl
    · rw [if_neg h]; rfl
  | cons p rest ih =>
    intro st t2 d
    have hstep : upsertAux t now (p :: rest) st =
        upsertAux t now rest (replaceRow st ⟨t, p.1, p.2, now⟩) := rfl
    rw [hstep, ih, lookupClose_replaceRow]
    by_cases h : t2 = t
    · rw [if_pos h, if_pos h]
      cases hv : lastVal rest d with
      | some c =>
        have hcons : lastVal (p :: rest) d = some c := by
          unfold lastVal
          rw [hv]
        rw [hcons]
      | none =>
        have hcons : lastVal (p :: rest) d =
            if p.1 = d then some p.2 else none := by
          unfold lastVal
          rw [hv]
        rw [hcons]
        by_cases hd : p.1 = d
        · rw [if_pos hd, if_pos ⟨h, hd.symm⟩]
        · rw [if_neg hd, if_neg (by intro hc; exact hd hc.2.symm)]
    · rw [if_neg h, if_neg h, if_neg (by intro hc; exact h hc.1)]

theorem lookupClose_upsert (t : String) (hist : List (Int × Rat)) (now : Nat)
    (st : Store) (t2 : String) (d : Int) :
    lookupClose (upsert_prices t hist now st) t2 d =
      match (if t2 = t then lastVal hist d else none) with
      | some c => some c
      | none => lookupClose st t2 d := by
  unfold upsert_prices
  cases hist with
  | nil =>
    by_cases h : t2 = t
    · rw [if_pos h]; rfl
    · rw [if_neg h]; rfl
  | cons p rest =>
    show lookupClose (upsertAux t now (p :: rest) st) t2 d = _
    exact lookupClose_upsertAux t now (p :: rest) st t2 d

theorem finishSlice_calls (name ticker : String) (st : Store) (cs : List UpCall)
    (slice : List (Int × Rat)) : (finishSlice name ticker st cs slice).calls = cs := by
  unfold finishSlice
  by_cases hb : slice.isEmpty = true
  · rw [if_pos hb]; rfl
  · rw [if_neg hb]
    cases h : assemble name ticker slice with
    | ok row => rfl
    | error er => rfl

theorem finishSlice_store (name ticker : String) (st : Store) (cs : List UpCall)
    (slice : List (Int × Rat)) : (finishSlice name ticker st cs slice).store = st := by
  unfold finishSlice
  by_cases hb : slice.isEmpty = true
  · rw [if_pos hb]; rfl
  · rw [if_neg hb]
    cases h : assemble name ticker slice with
    | ok row => rfl
    | error er => rfl

theorem finishSlice_ok (name ticker : String) (st : Store) (cs : List UpCall)
    (slice : List (Int × Rat)) (st2 : Store) (cs2 : List UpCall) (row : AssetRow)
    (h : finishSlice name ticker st cs slice = Outcome.ok st2 cs2 row) :
    st2 = st ∧ assemble name ticker slice = Except.ok row := by
  unfold finishSlice at h
  by_cases hb : slice.isEmpty = true
  · rw [if_pos hb] at h; cases h
  · rw [if_neg hb] at h
    cases ha : assemble name ticker slice with
    | ok row2 =>
      rw [ha] at h
      injection h with h1 h2 h3
      exact ⟨h1.symm, congrArg Except.ok h3⟩
    | error er => rw [ha] at h; cases h

theorem assemble_ok_fields (name ticker : String) (rows : List (Int × Rat))
    (row : AssetRow) (h : assemble name ticker rows = Except.ok row) :
    row.dates = rows.map (fun p => p.1) ∧ row.closes = rows.map (fun p => p.2) := by
  unfold assemble at h
  cases hg : rows.getLast? with
  | none => rw [hg] at h; cases h
  | some lastP =>
    simp only [hg] at h
    by_cases h2 : 2 ≤ (rows.map (fun p => p.2)).length
    · rw [if_pos h2] at h
      by_cases hz : (rows.map (fun p => p.2)).headD 0 = 0
      · rw [if_pos hz] at h; cases h
      · rw [if_neg hz] at h
        injection h with h3
        subst h3
        exact ⟨rfl, rfl⟩
    · rw [if_neg h2] at h
      injection h with h3
      subst h3
      exact ⟨rfl, rfl⟩

theorem processAssetCal_stale (fr : Bool) (s e : Int) (now : Nat)
    (U : UpCall → Except Unit (List (Int × Rat))) (name ticker : String) (st : Store) :
    processAssetCal true fr s e now U name ticker st =
      match assemble name ticker (fetch_cached_prices st ticker s e) with
      | Except.ok row => Outcome.ok st [] row
      | Except.error er => Outcome.err st [] er := rfl

theorem processAssetTrade_stale (fr : Bool) (n now : Nat)
    (U : UpCall → Except Unit (List (Int × Rat))) (name ticker : String) (st : Store) :
    processAssetTrade true fr n now U name ticker st =
      finishSlice name ticker st [] (fetch_cached_last_n st ticker n) := rfl

theorem processAssetCal_stale_calls (fr : Bool) (s e : Int) (now : Nat)
    (U : UpCall → Except Unit (List (Int × Rat))) (name ticker : String) (st : Store) :
    (processAssetCal true fr s e now U name ticker st).calls = [] := by
  rw [processAssetCal_stale]
  cases h : assemble name ticker (fetch_cached_prices st ticker s e) with
  | ok row => rfl
  | error er => rfl

theorem processAssetTrade_stale_calls (fr : Bool) (n now : Nat)
    (U : UpCall → Except Unit (List (Int × Rat))) (name ticker : String) (st : Store) :
    (processAssetTrade true fr n now U name ticker st).calls = [] := by
  rw [processAssetTrade_stale]
  exact finishSlice_calls name ticker st [] (fetch_cached_last_n st ticker n)

theorem runBatch_cons (step : String → String → Store → Outcome)
    (name ticker : String) (rest : List (String × String)) (st : Store) :
    runBatch step ((name, ticker) :: rest) st =
      match step name ticker st with
      | Outcome.ok st2 cs row =>
        ⟨(runBatch step rest st2).store, row :: (runBatch step rest st2).rows,
          LogEvent.success name :: (runBatch step rest st2).logs,
          cs ++ (runBatch step rest st2).calls⟩
      | Outcome.skip st2 cs =>
        ⟨(runBatch step rest st2).store, (runBatch step rest st2).rows,
          (runBatch step rest st2).logs, cs ++ (runBatch step rest st2).calls⟩
      | Outcome.err st2 cs _ =>
        ⟨(runBatch step rest st2).store, (runBatch step rest st2).rows,
          LogEvent.failure name :: (runBatch step rest st2).logs,
          cs ++ (runBatch step rest st2).calls⟩ := rfl

theorem runBatch_calls_nil (step : String → String → Store → Outcome)
    (hstep : ∀ name ticker st, (step name ticker st).calls = []) :
    ∀ (assets : List (String × String)) (st : Store),
      (runBatch step assets st).calls = [] := by
  intro assets
  induction assets with
  | nil => intro st; rfl
  | cons a rest ih =>
    intro st
    obtain ⟨name, ticker⟩ := a
    rw [runBatch_cons]
    cases h : step name ticker st with
    | ok st2 cs row =>
      have hc : cs = [] := by
        have h2 := hstep name ticker st
        rw [h] at h2
        exact h2
      show cs ++ (runBatch step rest st2).calls = []
      rw [hc, ih st2]
      rfl
    | skip st2 cs =>
      have hc : cs = [] := by
        have h2 := hstep name ticker st
        rw [h] at h2
        exact h2
      show cs ++ (runBatch step rest st2).calls = []
      rw [hc, ih st2]
      rfl
    | err st2 cs er =>
      have hc : cs = [] := by
        have h2 := hstep name ticker st
        rw [h] at h2
        exact h2
      show cs ++ (runBatch step rest st2).calls = []
      rw [hc, ih st2]
      rfl

/-- C3: under StaleOnly, for every request (calendar-window or
trading-day-count mode) and every cache state, no upstream call is made,
and the planned fetch list is empty. -/
theorem c3_stale_only_no_upstream (assets : List (String × String)) (s e : Int)
    (td : Option Nat) (fr : Bool) (now : Nat)
    (U : UpCall → Except Unit (List (Int × Rat))) (st : Store) :
    (fetch_asset_history assets s e td true fr now U st).calls = [] ∧
      ∀ (s2 e2 : Int) (cached : List Int), planFetchRanges true fr s2 e2 cached = [] := by
  constructor
  · unfold fetch_asset_history
    by_cases hb : tdTruthy td = true
    · rw [if_pos hb]
      exact runBatch_calls_nil _
        (fun name ticker st2 => processAssetTrade_stale_calls fr (td.getD 0) now U name ticker st2)
        assets st
    · rw [if_neg hb]
      exact runBatch_calls_nil _
        (fun name ticker st2 => processAssetCal_stale_calls fr s e now U name ticker st2)
        assets st
  · intro s2 e2 cached
    rfl

/-- C6: the upsert is idempotent — applying the same (ticker, batch) upsert
twice (even with different `updated_at` timestamps) leaves the store with
the same (ticker, date) → close mapping as applying it once. -/
theorem c6_upsert_idempotent (t : String) (hist : List (Int × Rat))
    (now1 now2 : Nat) (st : Store) (t2 : String) (d : Int) :
    lookupClose (upsert_prices t hist now2 (upsert_prices t hist now1 st)) t2 d =
      lookupClose (upsert_prices t hist now1 st) t2 d := by
  rw [lookupClose_upsert, lookupClose_upsert]
  cases hv : (if t2 = t then lastVal hist d else none) with
  | some c => rfl
  | none => rfl

theorem processAssetTrade_live (fr : Bool) (n now : Nat)
    (U : UpCall → Except Unit (List (Int × Rat))) (name ticker : String) (st : Store) :
    processAssetTrade false fr n now U name ticker st =
      if fr || decide ((fetch_cached_last_n st ticker n).length < n) then
        match U (UpCall.month ticker) with
        | Except.error _ => Outcome.err st [UpCall.month ticker] PyErr.upstreamErr
        | Except.ok hist =>
          finishSlice name ticker (tradeStore ticker n now hist st) [UpCall.month ticker]
            (fetch_cached_last_n (tradeStore ticker n now hist st) ticker n)
      else finishSlice name ticker st [] (fetch_cached_last_n st ticker n) := rfl

/-- C5 counterexample: the claim says the fetched trailing-month window is
upserted into the store, but with `trading_days = 1` and a 2-row fetched
history `[(0, 5), (1, 6)]` the step stores only the last row: the fetched
date 0 is absent from the resulting store, whereas upserting the fetched
window in full would record close 5 for it. -/
theorem c5_month_not_fully_upserted :
    (processAssetTrade false true 1 0 Utwo nameA tickA []).store =
        [⟨tickA, 1, 6, 0⟩] ∧
      lookupClose (processAssetTrade false true 1 0 Utwo nameA tickA []).store tickA 0 =
        none ∧
      lookupClose (upsert_prices tickA [(0, 5), (1, 6)] 0 []) tickA 0 = some 5 := by
  refine ⟨by decide, by decide, by decide⟩

/-- C5 (amended): in trading-day-count mode without StaleOnly, the single
trailing-month upstream call is made iff ForceRefresh is set or the cached
row count is below N; without a fetch the store is untouched; with a
successful fetch the store becomes the upsert of only the date-sorted last
N rows of the fetched history (the rest of the fetched month is
discarded); and any produced row is assembled from the re-read last-N
cached rows of the step's resulting store. -/
theorem c5_trading_fetch (fr : Bool) (n now : Nat)
    (U : UpCall → Except Unit (List (Int × Rat))) (name ticker : String) (st : Store) :
    ((processAssetTrade false fr n now U name ticker st).calls = [UpCall.month ticker] ↔
        (fr = true ∨ (fetch_cached_last_n st ticker n).length < n)) ∧
      ((fr = false ∧ n ≤ (fetch_cached_last_n st ticker n).length) →
        (processAssetTrade false fr n now U name ticker st).store = st) ∧
      (∀ hist, U (UpCall.month ticker) = Except.ok hist →
        (fr = true ∨ (fetch_cached_last_n st ticker n).length < n) →
        (processAssetTrade false fr n now U name ticker st).store =
          tradeStore ticker n now hist st) ∧
      ∀ st2 cs row,
        processAssetTrade false fr n now U name ticker st = Outcome.ok st2 cs row →
          row.dates = (fetch_cached_last_n st2 ticker n).map (fun p => p.1) ∧
            row.closes = (fetch_cached_last_n st2 ticker n).map (fun p => p.2) := by
  rw [processAssetTrade_live]
  by_cases hb : (fr || decide ((fetch_cached_last_n st ticker n).length < n)) = true
  · have hP : fr = true ∨ (fetch_cached_last_n st ticker n).length < n := by
      rcases Bool.or_eq_true_iff.mp hb with h | h
      · exact Or.inl h
      · exact Or.inr (of_decide_eq_true h)
    rw [if_pos hb]
    cases hu : U (UpCall.month ticker) with
    | error u =>
      refine ⟨⟨fun _ => hP, fun _ => rfl⟩, fun _ => rfl, ?_, ?_⟩
      · intro hist hu2 hP2
        cases hu2
      · intro st2 cs row hok
        cases hok
    | ok hist =>
      refine ⟨⟨fun _ => hP, fun _ => ?_⟩, ?_, ?_, ?_⟩
      · exact finishSlice_calls name ticker (tradeStore ticker n now hist st)
          [UpCall.month ticker] (fetch_cached_last_n (tradeStore ticker n now hist st) ticker n)
      · intro h2
        exfalso
        rcases hP with h3 | h3
        · rw [h2.1] at h3
          cases h3
        · omega
      · intro hist2 hu2 hP2
        injection hu2 with h3
        rw [← h3]
        exact finishSlice_store name ticker (tradeStore ticker n now hist st)
          [UpCall.month ticker] (fetch_cached_last_n (tradeStore ticker n now hist st) ticker n)
      · intro st2 cs row hok
        rcases finishSlice_ok name ticker (tradeStore ticker n now hist st)
            [UpCall.month ticker] (fetch_cached_last_n (tradeStore ticker n now hist st) ticker n)
            st2 cs row hok with ⟨hst, has⟩
        subst hst
        exact assemble_ok_fields name ticker
          (fetch_cached_last_n (tradeStore ticker n now hist st) ticker n) row has
  · have hnP : ¬(fr = true ∨ (fetch_cached_last_n st ticker n).length < n) := by
      intro hc
      apply hb
      rcases hc with h | h
      · rw [h]; rfl
      · rw [decide_eq_true h, Bool.or_true]
    rw [if_neg hb]
    refine ⟨⟨?_, fun hp => absurd hp hnP⟩, fun _ => ?_, ?_, ?_⟩
    · intro hc
      rw [finishSlice_calls] at hc
      cases hc
    · exact finishSlice_store name ticker st [] (fetch_cached_last_n st ticker n)
    · intro hist hu2 hP2
      exact absurd hP2 hnP
    · intro st2 cs row hok
      rcases finishSlice_ok name ticker st [] (fetch_cached_last_n st ticker n)
          st2 cs row hok with ⟨hst, has⟩
      rw [hst]
      exact assemble_ok_fields name ticker (fetch_cached_last_n st ticker n) row has

/-- C5 witness: with ForceRefresh set, the trailing-month upstream call is
made for a concrete asset and store. -/
theorem c5_trading_fetch_witness :
    (processAssetTrade false true 1 0 Uone nameA tickA []).calls = [UpCall.month tickA] :=
  (c5_trading_fetch true 1 0 Uone nameA tickA []).1.mpr (Or.inl rfl)

/-- C7: every produced asset row has a null period-change percent exactly
when its series has fewer than 2 points, and otherwise the change percent
is (last - first) / first * 100 over the first and last closes. -/
theorem c7_change_percent (name ticker : String) (cachedRows : List (Int × Rat))
    (row : AssetRow) (h : assemble name ticker cachedRows = Except.ok row) :
    (row.closes.length < 2 → row.changePct = none) ∧
      (2 ≤ row.closes.length →
        row.changePct =
          some ((row.closes.getLastD 0 - row.closes.headD 0) / row.closes.headD 0 * 100)) := by
  unfold assemble at h
  cases hg : cachedRows.getLast? with
  | none => rw [hg] at h; cases h
  | some lastP =>
    simp only [hg] at h
    by_cases h2 : 2 ≤ (cachedRows.map (fun p => p.2)).length
    · rw [if_pos h2] at h
      by_cases hz : (cachedRows.map (fun p => p.2)).headD 0 = 0
      · rw [if_pos hz] at h; cases h
      · rw [if_neg hz] at h
        injection h with h3
        subst h3
        refine ⟨fun hlt => absurd h2 (Nat.not_le_of_lt hlt), fun _ => rfl⟩
    · rw [if_neg h2] at h
      injection h with h3
      subst h3
      refine ⟨fun _ => rfl, fun hge => absurd hge h2⟩

theorem rowW_change_is_ten : rowW.changePct = some 10 := by
  show some (((110 : Rat) - 100) / 100 * 100) = some 10
  norm_num

/-- C7 witness: closes `[100, 110]` give change percent `+10`. -/
theorem c7_change_percent_witness :
    2 ≤ rowW.closes.length ∧
      rowW.changePct =
        some ((rowW.closes.getLastD 0 - rowW.closes.headD 0) / rowW.closes.headD 0 * 100) :=
  ⟨by decide,
    (c7_change_percent nameA tickA [(0, 100), (1, 110)] rowW (by rfl)).2 (by decide)⟩

/-- C8: a per-asset exception (here from the calendar-mode step) is caught
inside the loop: the failing asset contributes no row, a failure line is
logged, and the remaining assets are processed exactly as if the batch had
started after it on the store the failing step left behind — the batch
call itself always returns. -/
theorem c8_failure_isolation (staleOnly fr : Bool) (s e : Int) (now : Nat)
    (U : UpCall → Except Unit (List (Int × Rat))) (name ticker : String)
    (rest : List (String × String)) (st stE : Store) (cs : List UpCall) (er : PyErr)
    (h : processAssetCal staleOnly fr s e now U name ticker st = Outcome.err stE cs er) :
    (runBatch (processAssetCal staleOnly fr s e now U) ((name, ticker) :: rest) st).rows =
        (runBatch (processAssetCal staleOnly fr s e now U) rest stE).rows ∧
      (runBatch (processAssetCal staleOnly fr s e now U) ((name, ticker) :: rest) st).logs =
        LogEvent.failure name ::
          (runBatch (processAssetCal staleOnly fr s e now U) rest stE).logs ∧
      (runBatch (processAssetCal staleOnly fr s e now U) ((name, ticker) :: rest) st).store =
        (runBatch (processAssetCal staleOnly fr s e now U) rest stE).store ∧
      (runBatch (processAssetCal staleOnly fr s e now U) ((name, ticker) :: rest) st).calls =
        cs ++ (runBatch (processAssetCal staleOnly fr s e now U) rest stE).calls := by
  rw [runBatch_cons, h]
  exact ⟨rfl, rfl, rfl, rfl⟩

/-- C8 witness: a batch whose only asset fails upstream returns normally
with no rows and one failure log. -/
theorem c8_failure_isolation_witness :
    (runBatch (processAssetCal false false 0 1 0 Ufail) [(nameB, tickB)] []).rows = [] ∧
      (runBatch (processAssetCal false false 0 1 0 Ufail) [(nameB, tickB)] []).logs =
        [LogEvent.failure nameB] := by
  have h := c8_failure_isolation false false 0 1 0 Ufail nameB tickB [] [] []
    [UpCall.range tickB 0 2] PyErr.upstreamErr (by decide)
  exact ⟨h.1, h.2.1⟩

/-- C9: in `resolve_date_range`, when start and end are not both supplied
(truthy), the explicit-range branch is skipped: the result comes from the
period tag alone — independent of the date parser, so a lone supplied date
string is never parsed — and a missing period tag defaults to a 7-day
window ending today. -/
theorem c9_partial_range_ignored (pd : String → Except Unit Int)
    (period startStr endStr : Option String) (today : Int)
    (h : ¬(truthy startStr = true ∧ truthy endStr = true)) :
    resolve_date_range pd period startStr endStr today =
        Except.ok (today - periodDays period, today) ∧
      periodDays none = 7 := by
  constructor
  · unfold resolve_date_range
    have hcond : ¬((truthy startStr && truthy endStr) = true) := by
      intro hc
      exact h (Bool.and_eq_true_iff.mp hc)
    rw [if_neg hcond]
  · rfl

/-- C9 witness: a lone (unparseable-by-construction) start date is ignored
and the default 7-day window ending today is returned. -/
theorem c9_partial_range_ignored_witness :
    resolve_date_range pdFail none (some dateStrA) none 100 = Except.ok (93, 100) := by
  have h := (c9_partial_range_ignored pdFail none (some dateStrA) none 100 (by decide)).1
  rw [h]
  rfl

/-- C10: in calendar-window mode under StaleOnly with an empty cached
slice, the per-asset step ends in the swallowed IndexError (there is no
empty-slice guard on this path), so the batch returns normally, omits the
asset from the outputs, and logs it as a fetch failure. -/
theorem c10_stale_empty_slice (fr : Bool) (s e : Int) (now : Nat)
    (U : UpCall → Except Unit (List (Int × Rat))) (name ticker : String) (st : Store)
    (h : fetch_cached_prices st ticker s e = []) :
    processAssetCal true fr s e now U name ticker st = Outcome.err st [] PyErr.indexErr ∧
      (runBatch (processAssetCal true fr s e now U) [(name, ticker)] st).rows = [] ∧
      (runBatch (processAssetCal true fr s e now U) [(name, ticker)] st).logs =
        [LogEvent.failure name] := by
  have h1 : processAssetCal true fr s e now U name ticker st =
      Outcome.err st [] PyErr.indexErr := by
    rw [processAssetCal_stale, h]
    rfl
  refine ⟨h1, ?_, ?_⟩
  · rw [runBatch_cons, h1]
    rfl
  · rw [runBatch_cons, h1]
    rfl

/-- C10 witness: the empty store under StaleOnly yields the IndexError
outcome for a concrete asset. -/
theorem c10_stale_empty_slice_witness :
    processAssetCal true false 0 1 0 Uone nameA tickA [] =
      Outcome.err [] [] PyErr.indexErr :=
  (c10_stale_empty_slice false 0 1 0 Uone nameA tickA [] rfl).1
